import Mathlib

/-!
# Verification of the `f1_predictor` core pipeline

A shallow embedding, in Lean 4, of the pure data-transformation core of the
`Formula1` repository (`src/v2/src/f1_predictor`): qualifying-time parsing,
weather-text normalization, split-time (gap-to-winner) computation, per-race
position ranking, the points table and championship-standings aggregation.

Python strings are modelled as `List Char` (`PyStr`); machine floats are
modelled in exact rational arithmetic (`ℚ`); `None`/NaN cells are modelled as
`Option` values; code that can raise is modelled with `Option` results where
the exception escapes to the caller.  Pandas primitives used by the code
(`Series.rank(method="min")`, `ffill`/`bfill`, `groupby` aggregation and
sorting) are embedded by their documented per-group semantics on lists.
-/

namespace F1

/-- Python strings, modelled as lists of characters. -/
abbrev PyStr := List Char

/-- Python whitespace (the ASCII portion), as used by `str.split()`,
`str.strip()` and the regex class `\s`. -/
def isPyWs (c : Char) : Bool :=
  c = ' ' || c = '\t' || c = '\n' || c = '\r' || c = '\x0b' || c = '\x0c'

/-- Python `str.strip()` with no argument: drop leading and trailing
whitespace. -/
def pyStrip (s : PyStr) : PyStr :=
  ((s.dropWhile isPyWs).reverse.dropWhile isPyWs).reverse

/-- Python `str.split(sep)` for a one-character separator: split at every
occurrence of `sep`, keeping empty pieces. -/
def pySplitOn (sep : Char) : PyStr → List PyStr
  | [] => [[]]
  | c :: rest =>
    let r := pySplitOn sep rest
    if c = sep then [] :: r
    else
      match r with
      | [] => [[c]]
      | h :: t => (c :: h) :: t

/-- Fuelled worker for `pySplitWs`; the fuel is an upper bound on the length
of the remaining input, so it never runs out when called through
`pySplitWs`. -/
def pySplitWsGo : Nat → PyStr → List PyStr
  | 0, _ => []
  | _ + 1, [] => []
  | fuel + 1, c :: rest =>
    if isPyWs c then pySplitWsGo fuel rest
    else
      (c :: rest.takeWhile (fun x => !isPyWs x)) ::
        pySplitWsGo fuel (rest.dropWhile (fun x => !isPyWs x))

/-- Python `str.split()` with no argument: split on runs of whitespace,
dropping empty pieces. -/
def pySplitWs (s : PyStr) : List PyStr :=
  pySplitWsGo s.length s

/-- Fuelled worker for `replaceAll`; the fuel is an upper bound on the length
of the remaining input (the pattern is nonempty, so each step consumes at
least one character). -/
def replaceAllGo (pat rep : PyStr) : Nat → PyStr → PyStr
  | 0, s => s
  | _ + 1, [] => []
  | fuel + 1, c :: rest =>
    if pat.isPrefixOf (c :: rest) then
      rep ++ replaceAllGo pat rep fuel ((c :: rest).drop pat.length)
    else
      c :: replaceAllGo pat rep fuel rest

/-- Python `str.replace(pat, rep)`: replace every non-overlapping occurrence
of `pat`, scanning left to right.  (The code never calls `replace` with an
empty pattern; that case is modelled as the identity.) -/
def replaceAll (pat rep s : PyStr) : PyStr :=
  if pat = [] then s else replaceAllGo pat rep s.length s

/-- Fuelled worker for `containsSub`. -/
def containsSubGo (needle : PyStr) : Nat → PyStr → Bool
  | 0, s => needle.isPrefixOf s
  | fuel + 1, s =>
    needle.isPrefixOf s ||
      match s with
      | [] => false
      | _ :: rest => containsSubGo needle fuel rest

/-- Python `needle in hay` substring containment. -/
def containsSub (needle hay : PyStr) : Bool :=
  containsSubGo needle hay.length hay

/-- Numeric value of a list of decimal digits. -/
def pyDigitsVal (ds : PyStr) : Nat :=
  ds.foldl (fun a c => a * 10 + (c.toNat - '0'.toNat)) 0

/-- Worker for `isPyDigitRun`: after the first digit, underscores are allowed
only singly and strictly between digits. -/
def pyDigitRunTail : PyStr → Bool
  | [] => true
  | '_' :: d :: t => d.isDigit && pyDigitRunTail t
  | '_' :: [] => false
  | d :: t => d.isDigit && pyDigitRunTail t

/-- A nonempty run of decimal digits with optional single underscores between
digits — the digit-group syntax accepted by Python `int()`/`float()`. -/
def isPyDigitRun : PyStr → Bool
  | [] => false
  | c :: rest => c.isDigit && pyDigitRunTail rest

/-- Drop the underscore digit separators. -/
def stripUnderscores (s : PyStr) : PyStr :=
  s.filter (fun c => c ≠ '_')

/-- Python `int(s)` on a string: strip whitespace, optional sign, then a
digit run; any other shape raises `ValueError`, modelled as `none`. -/
def pyInt (s : PyStr) : Option Int :=
  match pyStrip s with
  | '+' :: ds => if isPyDigitRun ds then some (pyDigitsVal (stripUnderscores ds)) else none
  | '-' :: ds => if isPyDigitRun ds then some (-(pyDigitsVal (stripUnderscores ds) : Int)) else none
  | ds => if isPyDigitRun ds then some (pyDigitsVal (stripUnderscores ds)) else none

/-- Signed exponent of a Python float literal (the part after `e`/`E`). -/
def pyExpVal (s : PyStr) : Option Int :=
  match s with
  | '+' :: ds => if isPyDigitRun ds then some (pyDigitsVal (stripUnderscores ds)) else none
  | '-' :: ds => if isPyDigitRun ds then some (-(pyDigitsVal (stripUnderscores ds) : Int)) else none
  | ds => if isPyDigitRun ds then some (pyDigitsVal (stripUnderscores ds)) else none

/-- The value of Python `float("0." + x)`, in exact rational arithmetic:
optional fraction digits, then an optional `e`/`E` exponent; any other shape
raises `ValueError`, modelled as `none`. -/
def pyFloatFrac (x : PyStr) : Option ℚ :=
  let ds := x.takeWhile (fun c => c.isDigit || c = '_')
  let rest := x.dropWhile (fun c => c.isDigit || c = '_')
  if ds ≠ [] && !isPyDigitRun ds then none
  else
    let digits := stripUnderscores ds
    let fracVal : ℚ := (pyDigitsVal digits : ℚ) / 10 ^ digits.length
    match rest with
    | [] => some fracVal
    | e :: et =>
      if e = 'e' ∨ e = 'E' then
        (pyExpVal et).map (fun ex => fracVal * (10 : ℚ) ^ ex)
      else none

/-! ## Qualifying Time Normalizer (`features/qualifying.py`) -/

/-- Function `parse_qualifying_time` from `features/qualifying.py`: parse an
`M:SS.mmm` string to seconds; every failure path yields `none`. -/
def parse_qualifying_time (t : Option PyStr) : Option ℚ :=
  match t with
  | none => none
  | some s =>
    if s = [] ∨ s = "nan".toList then none
    else
      let s := pyStrip s
      if !(s.contains ':') then none
      else
        match pySplitOn ':' s with
        | [p0, p1] =>
          match pyInt p0 with
          | none => none
          | some m =>
            if p1.contains '.' then
              match pySplitOn '.' p1 with
              | s0 :: s1 :: _ =>
                match pyInt s0, pyFloatFrac s1 with
                | some sec, some ms => some ((m : ℚ) * 60 + (sec : ℚ) + ms)
                | _, _ => none
              | _ => none
            else
              match pyInt p1 with
              | some sec => some ((m : ℚ) * 60 + (sec : ℚ))
              | none => none
        | _ => none

/-! ## Split-Time Calculator (`features/splits.py`)

One race group (a `(season, round)` partition of the frame, in frame row
order) is modelled as a `List ResultRow`; `time` is the row's
`time_seconds` column (`time_millis / 1000` when the frame came with
milliseconds — the upstream unit conversion), `finish_position` and the NaN
cells are modelled as `Option ℚ`. -/

/-- One race-result row of the grouped frame. -/
structure ResultRow where
  time : Option ℚ
  finish_position : Option ℚ
  status : PyStr
deriving DecidableEq

/-- The winner-time lookup of `calculate_split_times`: the `time_seconds` of
the first row of the group whose `finish_position` equals 1, NaN (`none`)
when the group has no such row. -/
def winner_time (g : List ResultRow) : Option ℚ :=
  match g.find? (fun r => r.finish_position = some 1) with
  | some r => r.time
  | none => none

/-- One row's raw split: `time_seconds - winner_time`, NaN-propagating. -/
def row_split (w : Option ℚ) (r : ResultRow) : Option ℚ :=
  match r.time, w with
  | some t, some w' => some (t - w')
  | _, _ => none

/-- The `split_times` column of `calculate_split_times`. -/
def split_times (g : List ResultRow) : List (Option ℚ) :=
  g.map (row_split (winner_time g))

/-- Function `_compute_filled_split` from `features/splits.py`.  (Python `isdigit` is
modelled on ASCII digits; `status.replace("+", "")` removes every plus
sign.) -/
def compute_filled_split (split : Option ℚ) (status : PyStr) (position : Option ℚ) :
    Option ℚ :=
  match split with
  | none =>
    match position with
    | some p => some (p * 2)
    | none => none
  | some v =>
    if status ≠ [] && containsSub "Lap".toList status then
      match pySplitWs (replaceAll "+".toList [] status) with
      | p0 :: _ =>
        if p0 ≠ [] && p0.all Char.isDigit then
          some (v * max (pyDigitsVal p0 : ℚ) 1)
        else some v
      | [] => some v
    else some v

/-- The `filled_splits` column right after the per-row `apply`, before the
group-wise fill. -/
def filled_splits_raw (g : List ResultRow) : List (Option ℚ) :=
  g.map (fun r =>
    compute_filled_split (row_split (winner_time g) r) r.status r.finish_position)

/-- Worker for pandas `Series.ffill`: replace each NaN with the last
preceding non-NaN value (`carry`), if any. -/
def ffillGo (carry : Option α) : List (Option α) → List (Option α)
  | [] => []
  | none :: rest => carry :: ffillGo carry rest
  | some a :: rest => some a :: ffillGo (some a) rest

/-- pandas `Series.ffill` on one group. -/
def ffill (l : List (Option α)) : List (Option α) :=
  ffillGo none l

/-- pandas `Series.bfill` on one group: `ffill` run from the right. -/
def bfill (l : List (Option α)) : List (Option α) :=
  (ffillGo none l.reverse).reverse

/-- The final `filled_splits` column of `calculate_split_times` for one
`(season, round)` group: per-row fills, then `ffill().bfill()` within the
group. -/
def calculate_split_times (g : List ResultRow) : List (Option ℚ) :=
  bfill (ffill (filled_splits_raw g))

/-- Claim-side description of the group-wise backfill (from the spec's
words, for comparison with `ffill` then `bfill`): every cell receives the
nearest non-null value in the group's row order, looking backward first —
the last non-null at or before the cell, else the first non-null after
it. -/
def nearestFill (l : List (Option α)) : List (Option α) :=
  (List.range l.length).map (fun i =>
    ((l.take (i + 1)).reverse.findSome? id).or ((l.drop (i + 1)).findSome? id))

/-! Claim-side definitions for the per-row adjustment rule (C1), written
from the specification's words rather than from the code, for comparison
with `compute_filled_split`. -/

/-- Strip one leading `+`, as the spec's words "stripping a leading `+`"
read. -/
def stripLeadingPlus : PyStr → PyStr
  | '+' :: t => t
  | s => s

/-- The leading integer of a string: the maximal leading run of digits, when
nonempty. -/
def leadingInt (s : PyStr) : Option ℕ :=
  let ds := s.takeWhile Char.isDigit
  if ds = [] then none else some (pyDigitsVal ds)

/-- The per-row adjustment as claim C1 words it: on a non-null split whose
status contains `"Lap"`, multiply by `max(lapsDown, 1)` where `lapsDown` is
the leading integer of the status after stripping a leading `+`; otherwise
pass through; on a null split fall back to `finishPosition * 2.0`. -/
def filledSplitSpecC1 (split : Option ℚ) (status : PyStr) (position : Option ℚ) :
    Option ℚ :=
  match split with
  | none =>
    match position with
    | some p => some (p * 2)
    | none => none
  | some v =>
    if containsSub "Lap".toList status then
      match leadingInt (stripLeadingPlus status) with
      | some n => some (v * max (n : ℚ) 1)
      | none => some v
    else some v

/-- The laps-down extraction the code actually performs: remove every `+`
character, split on whitespace, and accept the first token when it is a
nonempty all-digit run. -/
def firstTokenDigits (s : PyStr) : Option ℕ :=
  match pySplitWs s with
  | t :: _ => if t ≠ [] && t.all Char.isDigit then some (pyDigitsVal t) else none
  | [] => none

/-- Claim C1 as amended: same three-branch rule, with `lapsDown` taken from
the first whitespace token of the status after removing every `+`. -/
def filledSplitAmendedC1 (split : Option ℚ) (status : PyStr) (position : Option ℚ) :
    Option ℚ :=
  match split with
  | none =>
    match position with
    | some p => some (p * 2)
    | none => none
  | some v =>
    if containsSub "Lap".toList status then
      match firstTokenDigits (replaceAll "+".toList [] status) with
      | some n => some (v * max (n : ℚ) 1)
      | none => some v
    else some v

/-! ## Weather Text Normalizer (`features/weather.py`)

`clean_weather_text` and its helpers.  Python regular expressions are
embedded as explicit scanners; for every pattern used by the code
(`\[\d+\]`, the three range patterns, `temperature\s+s\s`,
`\s+ing[\s\.\,\:\;]+`) greedy scanning coincides with the backtracking
semantics, because no give-back of a greedy sub-match can ever satisfy the
next literal.  The numeric averaging of `_normalize_temperature_ranges` is
modelled in exact rational arithmetic and rendered as a plain decimal
string; Python computes it in IEEE doubles, which agrees on the
decimal-exact values arising here.  `str.lower` is modelled on ASCII. -/

/-- The ordered literal replacements of `clean_weather_text`. -/
def weatherReplacements : List (PyStr × PyStr) :=
  [(" ".toList, " ".toList),
   ("º".toList, "°".toList),
   ("&amp;".toList, [] ),
   (",".toList, " ".toList),
   ("/>".toList, []),
   ("/p>".toList, []),
   ("p>".toList, []),
   ("/a>".toList, []),
   ("<p>".toList, []),
   ("</p>".toList, []),
   ("<br>".toList, " ".toList),
   ("<br/>".toList, " ".toList),
   ("☁".toList, "clouds".toList),
   ("☂".toList, "rain".toList),
   ("<".toList, []),
   (">".toList, []),
   ("weather:".toList, []),
   ("/".toList, " ".toList),
   (";".toList, " ".toList),
   (":".toList, " ".toList),
   ("(".toList, " ".toList),
   (")".toList, " ".toList)]

/-- The ordered word-spacing fixes of `clean_weather_text`. -/
def weatherSpacingFixes : List (PyStr × PyStr) :=
  [("dryovercast".toList, "dry overcast".toList),
   ("dryclouded".toList, "dry clouded".toList),
   ("drysunny".toList, "dry sunny".toList),
   ("dryclear".toList, "dry clear".toList),
   ("clear26°c".toList, "clear 26°c".toList),
   ("overcast22°c".toList, "overcast 22°c".toList),
   ("sunny".toList, "sunny ".toList),
   ("temperature".toList, "temperature ".toList),
   ("cloudy".toList, "cloudy ".toList),
   ("clear".toList, "clear ".toList),
   ("later".toList, "later ".toList),
   ("dry".toList, "dry ".toList),
   ("times".toList, "times ".toList)]

/-- Apply an ordered list of literal replacements left to right. -/
def applyReplacements (rs : List (PyStr × PyStr)) (s : PyStr) : PyStr :=
  rs.foldl (fun t pr => replaceAll pr.1 pr.2 t) s

/-- Fuelled worker for `removeCitations` (`re.sub(r"\[\d+\]", "", -)`). -/
def removeCitationsGo : Nat → PyStr → PyStr
  | 0, s => s
  | _ + 1, [] => []
  | fuel + 1, c :: rest =>
    if c = '[' then
      match rest.takeWhile Char.isDigit, rest.dropWhile Char.isDigit with
      | _ :: _, ']' :: tail => removeCitationsGo fuel tail
      | _, _ => c :: removeCitationsGo fuel rest
    else c :: removeCitationsGo fuel rest

/-- Helper `_remove_citations`: strip `[<digits>]` markers. -/
def removeCitations (s : PyStr) : PyStr :=
  removeCitationsGo s.length s

/-- Greedy match of the regex number token `\d+\.?\d*` at the head of the
input; returns the matched text and the rest. -/
def matchNum (s : PyStr) : Option (PyStr × PyStr) :=
  let d1 := s.takeWhile Char.isDigit
  if d1 = [] then none
  else
    match s.dropWhile Char.isDigit with
    | '.' :: s2 =>
      some (d1 ++ '.' :: s2.takeWhile Char.isDigit, s2.dropWhile Char.isDigit)
    | s1 => some (d1, s1)

/-- Try the hyphen range pattern `(\d+\.?\d*)\s*-\s*(\d+\.?\d*)` at the head
of the input; returns both captures and the rest after the match. -/
def tryHyphenRange (s : PyStr) : Option (PyStr × PyStr × PyStr) :=
  match matchNum s with
  | none => none
  | some (g1, r1) =>
    match r1.dropWhile isPyWs with
    | '-' :: r3 =>
      (matchNum (r3.dropWhile isPyWs)).map (fun g2r => (g1, g2r.1, g2r.2))
    | _ => none

/-- Try the pattern `(\d+\.?\d*)\s+to\s+(\d+\.?\d*)` at the head of the
input. -/
def tryToRange (s : PyStr) : Option (PyStr × PyStr × PyStr) :=
  match matchNum s with
  | none => none
  | some (g1, r1) =>
    match r1 with
    | w :: _ =>
      if isPyWs w then
        match r1.dropWhile isPyWs with
        | 't' :: 'o' :: r3 =>
          match r3 with
          | w2 :: _ =>
            if isPyWs w2 then
              (matchNum (r3.dropWhile isPyWs)).map (fun g2r => (g1, g2r.1, g2r.2))
            else none
          | [] => none
        | _ => none
      else none
    | [] => none

/-- Try the en-dash pattern `(\d+\.?\d*)–(\d+\.?\d*)` at the head of the
input. -/
def tryEnDashRange (s : PyStr) : Option (PyStr × PyStr × PyStr) :=
  match matchNum s with
  | none => none
  | some (g1, r1) =>
    match r1 with
    | '–' :: r2 => (matchNum r2).map (fun g2r => (g1, g2r.1, g2r.2))
    | _ => none

/-- Embedding of `re.findall` for one of the range patterns: scan left to right, collect
non-overlapping matches, resume after each match. -/
def findallGo (tryPat : PyStr → Option (PyStr × PyStr × PyStr)) :
    Nat → PyStr → List (PyStr × PyStr)
  | 0, _ => []
  | _ + 1, [] => []
  | fuel + 1, c :: rest =>
    match tryPat (c :: rest) with
    | some (g1, g2, after) => (g1, g2) :: findallGo tryPat fuel after
    | none => findallGo tryPat fuel rest

/-- The numeric value of a matched `\d+\.?\d*` token (Python `float` on it,
in exact arithmetic). -/
def numVal (s : PyStr) : ℚ :=
  let d1 := s.takeWhile Char.isDigit
  match s.dropWhile Char.isDigit with
  | '.' :: d2 => (pyDigitsVal d1 : ℚ) + (pyDigitsVal (d2.takeWhile Char.isDigit) : ℚ) / 10 ^ (d2.takeWhile Char.isDigit).length
  | _ => (pyDigitsVal d1 : ℚ)

/-- Decimal digits of a natural number. -/
def natDigits (n : ℕ) : PyStr :=
  Nat.toDigits 10 n

/-- Python `str(..)` of a non-negative float average, modelled exactly: the
shortest plain decimal expansion, with a trailing `.0` on integral
values. -/
def renderPyFloatAbs (q : ℚ) : PyStr :=
  let k := ((List.range (q.den + 1)).find? (fun k => (q * (10 : ℚ) ^ k).den = 1)).getD 0
  let m := (q * (10 : ℚ) ^ k).num.toNat
  if k = 0 then natDigits m ++ ".0".toList
  else
    let ds := natDigits m
    let ds := List.replicate (k + 1 - ds.length) '0' ++ ds
    ds.take (ds.length - k) ++ '.' :: ds.drop (ds.length - k)

/-- Python `str(..)` of a float average. -/
def renderPyFloat (q : ℚ) : PyStr :=
  if q < 0 then '-' :: renderPyFloatAbs (-q) else renderPyFloatAbs q

/-- One pass of `_normalize_temperature_ranges`: `findall` the pattern, then
for each captured pair replace the reassembled literal `mkTarget g1 g2` by
the rendered average. -/
def applyRangePass (tryPat : PyStr → Option (PyStr × PyStr × PyStr))
    (mkTarget : PyStr → PyStr → PyStr) (text : PyStr) : PyStr :=
  (findallGo tryPat text.length text).foldl
    (fun t m =>
      replaceAll (mkTarget m.1 m.2) (renderPyFloat ((numVal m.1 + numVal m.2) / 2)) t)
    text

/-- Helper `_normalize_temperature_ranges`: hyphen ranges, then `" to "` ranges,
then en-dash ranges. -/
def normalizeTemperatureRanges (text : PyStr) : PyStr :=
  applyRangePass tryEnDashRange (fun a b => a ++ '–' :: b)
    (applyRangePass tryToRange (fun a b => a ++ " to ".toList ++ b)
      (applyRangePass tryHyphenRange (fun a b => a ++ '-' :: b) text))

/-- Fuelled worker for `re.sub(r"temperature\s+s\s", "temperatures ", -)`. -/
def rogueTempGo : Nat → PyStr → PyStr
  | 0, s => s
  | _ + 1, [] => []
  | fuel + 1, c :: rest =>
    if "temperature".toList.isPrefixOf (c :: rest) then
      let r1 := (c :: rest).drop 11
      if (r1.takeWhile isPyWs) ≠ [] then
        match r1.dropWhile isPyWs with
        | 's' :: w2 :: tail =>
          if isPyWs w2 then "temperatures ".toList ++ rogueTempGo fuel tail
          else c :: rogueTempGo fuel rest
        | _ => c :: rogueTempGo fuel rest
      else c :: rogueTempGo fuel rest
    else c :: rogueTempGo fuel rest

/-- The character class `[\s\.\,\:\;]` of the stray-`ing` pattern. -/
def isIngClass (c : Char) : Bool :=
  isPyWs c || c = '.' || c = ',' || c = ':' || c = ';'

/-- Fuelled worker for `re.sub(r"\s+ing[\s\.\,\:\;]+", "ing ", -)`. -/
def rogueIngGo : Nat → PyStr → PyStr
  | 0, s => s
  | _ + 1, [] => []
  | fuel + 1, c :: rest =>
    if isPyWs c then
      match (c :: rest).dropWhile isPyWs with
      | 'i' :: 'n' :: 'g' :: r2 =>
        if (r2.takeWhile isIngClass) ≠ [] then
          "ing ".toList ++ rogueIngGo fuel (r2.dropWhile isIngClass)
        else c :: rogueIngGo fuel rest
      | _ => c :: rogueIngGo fuel rest
    else c :: rogueIngGo fuel rest

/-- Helper `_remove_rogue_endings`: the `temperature s` fix, then the stray-`ing`
fix. -/
def removeRogueEndings (s : PyStr) : PyStr :=
  rogueIngGo (rogueTempGo s.length s).length (rogueTempGo s.length s)

/-- Python `" ".join(text.split())`: collapse whitespace runs to single spaces and
drop outer whitespace. -/
def collapseWs (s : PyStr) : PyStr :=
  List.intercalate [' '] (pySplitWs s)

/-- Function `clean_weather_text` from `features/weather.py`.  The input is a Python
string or `None`; the float-NaN sentinel branch of the code is not
representable for string inputs and is subsumed by the `none` case. -/
def clean_weather_text (w : Option PyStr) : PyStr :=
  match w with
  | none => []
  | some weather =>
    if weather = "None".toList ∨ weather = "nan".toList ∨ weather = [] then []
    else
      let text := weather.map Char.toLower
      let text := applyReplacements weatherReplacements text
      let text := applyReplacements weatherSpacingFixes text
      let text := removeCitations text
      let text := normalizeTemperatureRanges text
      let text := removeRogueEndings text
      pyStrip (collapseWs text)

/-! ## Position Ranker (`postprocessing/positions.py`)

`predictions_to_positions` groups by `(season, round)` and, per group, runs
`group[pred].rank(method="min").astype(int)`.  One group's prediction column
is a `List (Option ℚ)` (`none` is NaN).  pandas `rank(method="min")` gives a
non-NaN entry one plus the number of strictly smaller non-NaN entries and
keeps NaN at NaN (`na_option="keep"`); `astype(int)` then raises on any NaN,
which is modelled by an `Option` result for the group. -/

/-- pandas `Series.rank(method="min")` on one group. -/
def pandasRankMin (xs : List (Option ℚ)) : List (Option ℕ) :=
  xs.map (fun x? => x?.map (fun x =>
    1 + ((xs.filterMap id).filter (fun y => y < x)).length))

/-- Sequence a list of optional values: `some` of the list exactly when
every entry is `some`. -/
def seqOpt : List (Option α) → Option (List α)
  | [] => some []
  | none :: _ => none
  | some a :: rest => (seqOpt rest).map (a :: ·)

/-- Function `predictions_to_positions` on one `(season, round)` group:
`rank(method="min")` then `astype(int)`; `none` models the
`astype` cast raising on NaN ranks. -/
def predictions_to_positions (g : List (Option ℚ)) : Option (List ℕ) :=
  seqOpt (pandasRankMin g)

/-! ## Points Mapper (`postprocessing/points.py`, `core/constants.py`) -/

/-- Constant `POINTS_SYSTEM` from `core/constants.py`, as the association list of the
Python dict. -/
def POINTS_SYSTEM : List (ℤ × ℤ) :=
  [(1, 25), (2, 18), (3, 15), (4, 12), (5, 10), (6, 8), (7, 6), (8, 4), (9, 2), (10, 1)]

/-- Function `position_to_points`: `POINTS_SYSTEM.get(int(position), 0)`. -/
def position_to_points (position : ℤ) : ℤ :=
  (POINTS_SYSTEM.lookup position).getD 0

/-! ## Sorting infrastructure

Insertion sort with a boolean comparator, used to model the two sortings of
the Standings Aggregator (`groupby`'s ascending key sort and
`sort_values(total_points, ascending=False)`) and the claim-side competition
ranking.  `sort_values`'s default quicksort is not stable, so nothing below
depends on stability. -/

/-- Insert into a sorted list. -/
def insLe (le : α → α → Bool) (a : α) : List α → List α
  | [] => [a]
  | b :: t => if le a b then a :: b :: t else b :: insLe le a t

/-- Insertion sort by a boolean comparator. -/
def sortLe (le : α → α → Bool) : List α → List α
  | [] => []
  | a :: t => insLe le a (sortLe le t)

/-- Python `<=` on strings: lexicographic by code point. -/
def leChars : PyStr → PyStr → Bool
  | [], _ => true
  | _ :: _, [] => false
  | a :: as_, b :: bs => if a = b then leChars as_ bs else decide (a < b)

/-! ## Standings Aggregator (`postprocessing/standings.py`)

`calculate_driver_standings` keyed by the `name` column; the input rows are
`(name, position)` pairs of the frame, in frame order.
(`calculate_constructor_standings` is the same computation keyed by
`constructor`.) -/

/-- One output row of the standings table. -/
structure Standing where
  position : ℕ
  name : PyStr
  total_points : ℤ
  wins : ℕ
  podiums : ℕ
  points_finishes : ℕ
  races : ℕ
deriving DecidableEq

/-- Assign `standings["position"] = range(1, len(standings) + 1)`. -/
def withPositions : ℕ → List Standing → List Standing
  | _, [] => []
  | i, s :: t => { s with position := i } :: withPositions (i + 1) t

/-- The per-entity aggregation of `calculate_driver_standings`:
`total_points = sum`, `races = count`, `wins = count(points == 25)`,
`podiums = count(points >= 15)`, `points_finishes = count(points > 0)`. -/
def aggStanding (rows : List (PyStr × ℤ)) (n : PyStr) : Standing :=
  let pts := (rows.filter (fun r => r.1 = n)).map (fun r => position_to_points r.2)
  { position := 0
    name := n
    total_points := pts.sum
    wins := (pts.filter (fun p => p = 25)).length
    podiums := (pts.filter (fun p => 15 ≤ p)).length
    points_finishes := (pts.filter (fun p => 0 < p)).length
    races := pts.length }

/-- Function `calculate_driver_standings` from `postprocessing/standings.py`:
points per row, `groupby(name)` aggregation (keys sorted ascending, one
group per distinct name), sort by `total_points` descending, then dense
positions `1..N`. -/
def calculate_driver_standings (rows : List (PyStr × ℤ)) : List Standing :=
  let names := sortLe leChars (rows.map Prod.fst).dedup
  let standings0 := names.map (aggStanding rows)
  withPositions 1 (sortLe (fun a b => decide (b.total_points ≤ a.total_points)) standings0)

/-! Claim-side definition for C2: competition ("min"-method) ranking by the
spec's words — sort the gaps ascending, give every row the lowest ordinal
among the rows tied with it. -/

/-- Competition ranks: position of each gap is one plus the index of its
first occurrence in the ascending sort. -/
def competitionRanks (xs : List ℚ) : List ℕ :=
  let sorted := sortLe (fun a b => decide (a ≤ b)) xs
  xs.map (fun v => sorted.indexOf v + 1)

/-! ## Theorems

Concrete evaluations below go through the kernel, so the `Rat` arithmetic
operations (sealed behind `irreducible` for elaboration performance) are
reopened for reduction. -/

set_option allowUnsafeReducibility true

attribute [semireducible] Rat.mul Rat.inv Rat.add Rat.div Rat.sub Rat.neg

/-! ### C9 — points table -/

/-- C9: `position_to_points` is a pure total function returning exactly
25, 18, 15, 12, 10, 8, 6, 4, 2, 1 for positions 1..10 and 0 for every
integer position outside that range. -/
theorem C9_position_to_points_table :
    (position_to_points 1 = 25 ∧ position_to_points 2 = 18 ∧
     position_to_points 3 = 15 ∧ position_to_points 4 = 12 ∧
     position_to_points 5 = 10 ∧ position_to_points 6 = 8 ∧
     position_to_points 7 = 6 ∧ position_to_points 8 = 4 ∧
     position_to_points 9 = 2 ∧ position_to_points 10 = 1) ∧
    ∀ p : ℤ, (p < 1 ∨ 10 < p) → position_to_points p = 0 := by
  refine ⟨by decide, ?_⟩
  intro p hp
  have e1 : (p == (1 : ℤ)) = false := beq_eq_false_iff_ne.2 (by omega)
  have e2 : (p == (2 : ℤ)) = false := beq_eq_false_iff_ne.2 (by omega)
  have e3 : (p == (3 : ℤ)) = false := beq_eq_false_iff_ne.2 (by omega)
  have e4 : (p == (4 : ℤ)) = false := beq_eq_false_iff_ne.2 (by omega)
  have e5 : (p == (5 : ℤ)) = false := beq_eq_false_iff_ne.2 (by omega)
  have e6 : (p == (6 : ℤ)) = false := beq_eq_false_iff_ne.2 (by omega)
  have e7 : (p == (7 : ℤ)) = false := beq_eq_false_iff_ne.2 (by omega)
  have e8 : (p == (8 : ℤ)) = false := beq_eq_false_iff_ne.2 (by omega)
  have e9 : (p == (9 : ℤ)) = false := beq_eq_false_iff_ne.2 (by omega)
  have e10 : (p == (10 : ℤ)) = false := beq_eq_false_iff_ne.2 (by omega)
  simp [position_to_points, POINTS_SYSTEM, List.lookup, e1, e2, e3, e4, e5, e6,
    e7, e8, e9, e10]

/-- Witness for C9 at the concrete out-of-table position 11. -/
theorem C9_witness : position_to_points 11 = 0 :=
  C9_position_to_points_table.2 11 (by decide)

/-! ### C8 — Position Ranker failure condition -/

theorem seqOpt_eq_none_iff (l : List (Option α)) : seqOpt l = none ↔ none ∈ l := by
  induction l with
  | nil => simp [seqOpt]
  | cons x t ih =>
    cases x with
    | none => simp [seqOpt]
    | some a => simp [seqOpt, Option.map_eq_none', ih]

theorem none_mem_pandasRankMin (xs : List (Option ℚ)) :
    none ∈ pandasRankMin xs ↔ none ∈ xs := by
  simp [pandasRankMin, List.mem_map, Option.map_eq_none']

/-- C8 counterexample: a group holding one non-null and one null prediction
still fails (`rank().astype(int)` raises on the NaN rank), contradicting
"for groups with at least one non-null prediction it does not fail". -/
theorem C8_counterexample :
    predictions_to_positions [some 1, none] = none := by decide

/-- C8 as amended: ranking a group fails exactly when the group contains at
least one null prediction; in particular an all-null group fails, and a
group whose predictions are all non-null succeeds. -/
theorem C8_rank_failure_iff :
    ∀ g : List (Option ℚ), (predictions_to_positions g = none ↔ none ∈ g) := by
  intro g
  rw [predictions_to_positions, seqOpt_eq_none_iff, none_mem_pandasRankMin]

/-! ### C1 — per-row filled-split adjustment -/

/-- C1 counterexample: on status `"+1+2 Lap"` with raw split 10 the code
removes every `+` (giving first token `"12"`) and returns `120`, while the
claim's rule (strip one leading `+`, parse the leading integer, here 1)
yields `10`. -/
theorem C1_counterexample :
    compute_filled_split (some 10) "+1+2 Lap".toList none = some 120 ∧
    filledSplitSpecC1 (some 10) "+1+2 Lap".toList none = some 10 := by
  constructor <;> decide

/-- C1 as amended: the per-row rule holds with `lapsDown` parsed as the code
does — remove every `+` from the status, split on whitespace, and accept the
first token when it is all digits; a `"+1 Lap"` row with raw split 10 keeps
filled split 10. -/
theorem C1_filled_split_amended :
    (∀ (split : Option ℚ) (status : PyStr) (position : Option ℚ),
      compute_filled_split split status position =
        filledSplitAmendedC1 split status position) ∧
    compute_filled_split (some 10) "+1 Lap".toList (some 5) = some 10 := by
  refine ⟨?_, by decide⟩
  intro split status position
  cases split with
  | none => rfl
  | some v =>
    cases status with
    | nil =>
      have h : containsSub ['L', 'a', 'p'] ([] : PyStr) = false := by decide
      simp [compute_filled_split, filledSplitAmendedC1, h]
    | cons c t =>
      simp only [compute_filled_split, filledSplitAmendedC1, firstTokenDigits,
        ne_eq, List.cons_ne_nil, not_false_eq_true, decide_True, Bool.true_and]
      split
      · rcases hsp : pySplitWs (replaceAll "+".toList [] (c :: t)) with _ | ⟨p0, ps⟩
        · simp [hsp]
        · simp only [hsp]
          split_ifs with h₁ <;> simp_all
      · rfl

/-! ### C7 — weather sentinel inputs -/

/-- C7 counterexample: the lowercase string `"none"` is not in the code's
sentinel tuple `("None", "nan", "")` and passes through the pipeline
unchanged, so it does not map to the empty string. -/
theorem C7_counterexample :
    clean_weather_text (some "none".toList) = "none".toList ∧
    clean_weather_text (some "none".toList) ≠ [] := by
  constructor <;> decide

/-- C7 as amended: the sentinel inputs are null, the empty string, and the
exact (case-sensitive) strings `"nan"` and `"None"`; each maps to the empty
string before any other transformation. -/
theorem C7_weather_sentinels :
    clean_weather_text none = [] ∧
    clean_weather_text (some []) = [] ∧
    clean_weather_text (some "nan".toList) = [] ∧
    clean_weather_text (some "None".toList) = [] := by
  refine ⟨rfl, by decide, by decide, by decide⟩

/-! ### C6 — weather cleaning idempotence -/

/-- C6 counterexample: `clean` is not idempotent.  On
`"x ing ing z"` one run rewrites the first stray `ing` and yields
`"xing ing z"`; running `clean` on that output rewrites the remaining stray
`ing` and yields the different string `"xinging z"`. -/
theorem C6_counterexample :
    clean_weather_text (some (clean_weather_text (some "x ing ing z".toList))) ≠
      clean_weather_text (some "x ing ing z".toList) := by
  decide

/-- C6 as amended: `clean_weather_text` is a total deterministic function
(modelled as such — every failure-free Python path is a value here), but it
is idempotent only on inputs whose cleaned output offers the rules no new
match; it is idempotent on all sentinel inputs and on representative weather
texts, not on every input. -/
theorem C6_weather_idempotence_on_clean_outputs :
    clean_weather_text (some (clean_weather_text none)) =
      clean_weather_text none ∧
    clean_weather_text (some (clean_weather_text (some []))) =
      clean_weather_text (some []) ∧
    clean_weather_text (some (clean_weather_text (some "nan".toList))) =
      clean_weather_text (some "nan".toList) ∧
    clean_weather_text (some (clean_weather_text (some "None".toList))) =
      clean_weather_text (some "None".toList) ∧
    clean_weather_text (some (clean_weather_text (some "Sunny, warm".toList))) =
      clean_weather_text (some "Sunny, warm".toList) ∧
    clean_weather_text (some (clean_weather_text (some "20-30°c".toList))) =
      clean_weather_text (some "20-30°c".toList) ∧
    clean_weather_text
        (some (clean_weather_text (some "Weather: Sunny, warm 20-30°c<br/>".toList))) =
      clean_weather_text (some "Weather: Sunny, warm 20-30°c<br/>".toList) ∧
    clean_weather_text (some (clean_weather_text (some "wet rain ☂ 15 to 17°c".toList))) =
      clean_weather_text (some "wet rain ☂ 15 to 17°c".toList) := by
  refine ⟨rfl, by decide, by decide, by decide, by decide, by decide, by decide,
    by decide⟩

/-! ### C5 — qualifying-time parsing -/

theorem mem_pyStrip {x : Char} {s : PyStr} (h : x ∈ pyStrip s) : x ∈ s := by
  unfold pyStrip at h
  rw [List.mem_reverse] at h
  have h1 := List.Sublist.mem h (List.dropWhile_sublist _)
  rw [List.mem_reverse] at h1
  exact List.Sublist.mem h1 (List.dropWhile_sublist _)

theorem count_dropWhile_ws {c : Char} (hc : isPyWs c = false) (l : PyStr) :
    (l.dropWhile isPyWs).count c = l.count c := by
  conv_rhs => rw [← List.takeWhile_append_dropWhile isPyWs l]
  rw [List.count_append]
  have h0 : (l.takeWhile isPyWs).count c = 0 := by
    rw [List.count_eq_zero]
    intro hmem
    have := List.mem_takeWhile_imp hmem
    rw [hc] at this
    exact Bool.false_ne_true this
  omega

theorem count_pyStrip {c : Char} (hc : isPyWs c = false) (s : PyStr) :
    (pyStrip s).count c = s.count c := by
  unfold pyStrip
  rw [List.count_reverse, count_dropWhile_ws hc, List.count_reverse,
    count_dropWhile_ws hc]

theorem pySplitOn_ne_nil (sep : Char) (s : PyStr) : pySplitOn sep s ≠ [] := by
  cases s with
  | nil => simp [pySplitOn]
  | cons c rest =>
    cases hr : pySplitOn sep rest with
    | nil => by_cases hc : c = sep <;> simp [pySplitOn, hr, hc]
    | cons h t => by_cases hc : c = sep <;> simp [pySplitOn, hr, hc]

theorem length_pySplitOn (sep : Char) (s : PyStr) :
    (pySplitOn sep s).length = s.count sep + 1 := by
  induction s with
  | nil => simp [pySplitOn]
  | cons c rest ih =>
    by_cases hc : c = sep
    · simp [pySplitOn, hc, List.count_cons, ih]
    · cases hr : pySplitOn sep rest with
      | nil => exact absurd hr (pySplitOn_ne_nil sep rest)
      | cons h t =>
        rw [hr] at ih
        simp only [pySplitOn, hr, if_neg hc, List.length_cons, List.count_cons]
        have hbeq : (c == sep) = false := beq_eq_false_iff_ne.2 hc
        simp only [hbeq, if_false]
        simp at ih ⊢
        omega

theorem contains_eq_true_iff {a : Char} {l : PyStr} : l.contains a = true ↔ a ∈ l :=
  List.elem_iff

/-- C5: `parse_qualifying_time` returns null on null input, the empty
string, the literal `"nan"`, any string without a colon, and any string
whose colon-split has other than two parts; a well-formed `M:SS.mmm` string
parses to `minutes*60 + seconds + fractional` (`"1:23.456"` to 83.456 and
`"0:59.999"` to 59.999); failure never escapes as an exception — it is the
`none` value. -/
theorem C5_parse_qualifying_time_contract :
    parse_qualifying_time none = none ∧
    parse_qualifying_time (some []) = none ∧
    parse_qualifying_time (some "nan".toList) = none ∧
    (∀ s : PyStr, ':' ∉ s → parse_qualifying_time (some s) = none) ∧
    (∀ s : PyStr, (pySplitOn ':' s).length ≠ 2 → parse_qualifying_time (some s) = none) ∧
    parse_qualifying_time (some "1:23.456".toList) = some (83456 / 1000) ∧
    parse_qualifying_time (some "0:59.999".toList) = some (59999 / 1000) := by
  refine ⟨rfl, by decide, by decide, ?_, ?_, by decide, by decide⟩
  · intro s hs
    by_cases hsent : s = [] ∨ s = "nan".toList
    · rcases hsent with h | h <;> subst h <;> decide
    · simp only [parse_qualifying_time]
      rw [if_neg hsent]
      simp
      intro h3
      exact absurd (mem_pyStrip h3) hs
  · intro s hlen
    by_cases hsent : s = [] ∨ s = "nan".toList
    · rcases hsent with h | h <;> subst h <;> decide
    · have hcount : (pySplitOn ':' (pyStrip s)).length = (pySplitOn ':' s).length := by
        rw [length_pySplitOn, length_pySplitOn, count_pyStrip (by decide)]
      simp only [parse_qualifying_time]
      rw [if_neg hsent]
      cases hcontains : (pyStrip s).contains ':' with
      | false => simp [hcontains]
      | true =>
        simp only [hcontains, Bool.not_true, Bool.false_eq_true, if_false]
        rcases hsp : pySplitOn ':' (pyStrip s) with _ | ⟨p0, _ | ⟨p1, _ | ⟨p2, rest⟩⟩⟩
        · simp [hsp]
        · simp [hsp]
        · rw [hsp] at hcount
          exact absurd hcount.symm hlen
        · simp [hsp]

/-- Witness for C5 at the concrete colon-free string `"invalid"`. -/
theorem C5_witness : parse_qualifying_time (some "invalid".toList) = none :=
  C5_parse_qualifying_time_contract.2.2.2.1 "invalid".toList (by decide)

/-! ### C10 — duplicate winners -/

/-- C10: with more than one `finish_position == 1` row in a group no error
is raised (the computation is total): the winner time for the whole group
is the time of the first such row in input order, every row's split is its
time minus that single winner time, and consequently reordering duplicate
winners changes the result — shown on a concrete two-winner group and its
reversal. -/
theorem C10_first_winner_row_order :
    (∀ (xs ys : List ResultRow) (w1 : ResultRow),
      (∀ r ∈ xs, ¬ r.finish_position = some 1) →
      w1.finish_position = some 1 →
      winner_time (xs ++ w1 :: ys) = w1.time ∧
      split_times (xs ++ w1 :: ys) = (xs ++ w1 :: ys).map (row_split w1.time)) ∧
    split_times [⟨some 100, some 1, "Finished".toList⟩,
        ⟨some 105, some 1, "Finished".toList⟩] = [some 0, some 5] ∧
    split_times [⟨some 105, some 1, "Finished".toList⟩,
        ⟨some 100, some 1, "Finished".toList⟩] = [some 0, some (-5)] := by
  refine ⟨?_, by decide, by decide⟩
  intro xs ys w1 hxs hw
  have hfind : (xs ++ w1 :: ys).find? (fun r => r.finish_position = some 1) = some w1 := by
    rw [List.find?_append]
    have h1 : xs.find? (fun r => decide (r.finish_position = some 1)) = none :=
      List.find?_eq_none.2 (fun x hx => by simpa using hxs x hx)
    have h2 : (w1 :: ys).find? (fun r => decide (r.finish_position = some 1)) = some w1 :=
      List.find?_cons_of_pos _ (by simpa using hw)
    rw [h1, h2]
    rfl
  constructor
  · rw [winner_time, hfind]
  · rw [split_times, winner_time, hfind]

/-- Witness for C10: the reversed two-winner group takes the first row's
time (105) as winner time. -/
theorem C10_witness :
    winner_time [⟨some 105, some 1, "Finished".toList⟩,
      ⟨some 100, some 1, "Finished".toList⟩] = some 105 :=
  (C10_first_winner_row_order.1 [] [⟨some 100, some 1, "Finished".toList⟩]
    ⟨some 105, some 1, "Finished".toList⟩ (by simp) rfl).1

/-! ### Sorting lemmas (shared by C2 and C4) -/

theorem perm_insLe (le : α → α → Bool) (a : α) (l : List α) :
    (insLe le a l).Perm (a :: l) := by
  induction l with
  | nil => exact List.Perm.refl _
  | cons b t ih =>
    simp only [insLe]
    split
    · exact List.Perm.refl _
    · exact (ih.cons b).trans (List.Perm.swap a b t)

theorem perm_sortLe (le : α → α → Bool) (l : List α) : (sortLe le l).Perm l := by
  induction l with
  | nil => exact List.Perm.refl _
  | cons a t ih => exact (perm_insLe le a (sortLe le t)).trans (ih.cons a)

theorem pairwise_insLe (le : α → α → Bool)
    (htrans : ∀ a b c, le a b = true → le b c = true → le a c = true)
    (htot : ∀ a b, le a b = false → le b a = true) (a : α) {l : List α}
    (hl : l.Pairwise (fun x y => le x y = true)) :
    (insLe le a l).Pairwise (fun x y => le x y = true) := by
  induction l with
  | nil => simp [insLe]
  | cons b t ih =>
    rw [List.pairwise_cons] at hl
    obtain ⟨hb, ht⟩ := hl
    simp only [insLe]
    split
    next hab =>
      rw [List.pairwise_cons]
      refine ⟨?_, List.pairwise_cons.2 ⟨hb, ht⟩⟩
      intro x hx
      rcases List.mem_cons.1 hx with h | h
      · subst h; exact hab
      · exact htrans a b x hab (hb x h)
    next hab =>
      have hfalse : le a b = false := by
        cases h : le a b
        · rfl
        · exact absurd h hab
      have hba := htot a b hfalse
      rw [List.pairwise_cons]
      refine ⟨?_, ih ht⟩
      intro x hx
      rcases List.mem_cons.1 ((perm_insLe le a t).mem_iff.1 hx) with h | h
      · subst h; exact hba
      · exact hb x h

theorem pairwise_sortLe (le : α → α → Bool)
    (htrans : ∀ a b c, le a b = true → le b c = true → le a c = true)
    (htot : ∀ a b, le a b = false → le b a = true) (l : List α) :
    (sortLe le l).Pairwise (fun x y => le x y = true) := by
  induction l with
  | nil => simp [sortLe]
  | cons a t ih => exact pairwise_insLe le htrans htot a ih

/-! ### C2 — competition (min-method) ranking -/

theorem seqOpt_map_some (l : List α) : seqOpt (l.map some) = some l := by
  induction l with
  | nil => rfl
  | cons a t ih => simp [seqOpt, ih]

theorem indexOf_sorted_eq_count_lt {l : List ℚ}
    (hl : l.Pairwise (fun x y : ℚ => x ≤ y)) :
    ∀ v ∈ l, l.indexOf v = (l.filter (fun y => decide (y < v))).length := by
  induction l with
  | nil => intro v hv; cases hv
  | cons b t ih =>
    intro v hv
    rw [List.pairwise_cons] at hl
    obtain ⟨hb, ht⟩ := hl
    by_cases hbv : b = v
    · subst hbv
      have hfilter : List.filter (fun y => decide (y < b)) (b :: t) = [] := by
        rw [List.filter_eq_nil_iff]
        intro a ha
        rcases List.mem_cons.1 ha with h | h
        · subst h; simp
        · simp [not_lt.2 (hb a h)]
      rw [hfilter]
      simp [List.indexOf_cons]
    · have hvt : v ∈ t := by
        rcases List.mem_cons.1 hv with h | h
        · exact absurd h.symm hbv
        · exact h
      have hbltv : b < v := lt_of_le_of_ne (hb v hvt) hbv
      have hbeq : (b == v) = false := beq_eq_false_iff_ne.2 hbv
      rw [List.indexOf_cons, hbeq, List.filter_cons]
      simp only [cond_false]
      rw [if_pos (by simp [hbltv])]
      rw [ih ht v hvt]
      simp

/-- C2: per `(season, round)` group with all predicted gaps non-null,
`predictions_to_positions` assigns each row the competition (min-method)
rank of its gap — the lowest ordinal among tied rows in the ascending sort,
with the next distinct value skipping the tied positions; gaps
`[0.0, 5.5, 5.5, 9.8]` get positions `[1, 2, 2, 4]`. -/
theorem C2_competition_ranking :
    (∀ gaps : List ℚ,
      predictions_to_positions (gaps.map some) = some (competitionRanks gaps)) ∧
    predictions_to_positions [some 0, some (55 / 10), some (55 / 10), some (98 / 10)] =
      some [1, 2, 2, 4] := by
  refine ⟨?_, by decide⟩
  intro gaps
  rw [predictions_to_positions]
  have h1 : pandasRankMin (gaps.map some) =
      (gaps.map (fun x => 1 + (gaps.filter (fun y => decide (y < x))).length)).map some := by
    simp [pandasRankMin, List.filterMap_map, List.map_map, Function.comp,
      List.filterMap_some]
  rw [h1, seqOpt_map_some]
  congr 1
  rw [competitionRanks]
  apply List.map_congr_left
  intro v hv
  have htrans : ∀ a b c : ℚ, (fun a b : ℚ => decide (a ≤ b)) a b = true →
      (fun a b : ℚ => decide (a ≤ b)) b c = true →
      (fun a b : ℚ => decide (a ≤ b)) a c = true := by
    intro a b c hab hbc
    exact decide_eq_true (le_trans (of_decide_eq_true hab) (of_decide_eq_true hbc))
  have htot : ∀ a b : ℚ, (fun a b : ℚ => decide (a ≤ b)) a b = false →
      (fun a b : ℚ => decide (a ≤ b)) b a = true := by
    intro a b hab
    exact decide_eq_true (le_of_not_le (of_decide_eq_false hab))
  have hsorted : (sortLe (fun a b : ℚ => decide (a ≤ b)) gaps).Pairwise
      (fun x y : ℚ => x ≤ y) :=
    (pairwise_sortLe _ htrans htot gaps).imp (fun h => of_decide_eq_true h)
  have hperm := perm_sortLe (fun a b : ℚ => decide (a ≤ b)) gaps
  have hvmem : v ∈ sortLe (fun a b : ℚ => decide (a ≤ b)) gaps := hperm.mem_iff.2 hv
  rw [indexOf_sorted_eq_count_lt hsorted v hvmem, (hperm.filter _).length_eq]
  omega

/-! ### C3 — group-wise backfill of filled splits -/

theorem getLast?_cons_of_ne_nil {a : α} {l : List α} (h : l ≠ []) :
    (a :: l).getLast? = l.getLast? := by
  cases l with
  | nil => exact absurd rfl h
  | cons b t => exact List.getLast?_cons_cons

theorem ffillGo_ne_nil {l : List (Option α)} (h : l ≠ []) (c : Option α) :
    ffillGo c l ≠ [] := by
  cases l with
  | nil => exact absurd rfl h
  | cons x t => cases x <;> simp [ffillGo]

theorem mem_ffillGo_some :
    ∀ (l : List (Option α)) (v : α), ∀ y ∈ ffillGo (some v) l, y ≠ none := by
  intro l
  induction l with
  | nil => intro v y hy; cases hy
  | cons x t ih =>
    intro v y hy
    cases x with
    | none =>
      rw [show ffillGo (some v) (none :: t) = some v :: ffillGo (some v) t from rfl] at hy
      rcases List.mem_cons.1 hy with h | h
      · subst h; simp
      · exact ih v y h
    | some a =>
      rw [show ffillGo (some v) (some a :: t) = some a :: ffillGo (some a) t from rfl] at hy
      rcases List.mem_cons.1 hy with h | h
      · subst h; simp
      · exact ih a y h

theorem ffillGo_getLast?_some :
    ∀ (l : List (Option α)) (c : Option α), l ≠ [] →
      ((∃ x ∈ l, x ≠ none) ∨ c ≠ none) →
      ∃ v, (ffillGo c l).getLast? = some (some v) := by
  intro l
  induction l with
  | nil => intro c h _; exact absurd rfl h
  | cons x t ih =>
    intro c _ hd
    cases t with
    | nil =>
      cases x with
      | none =>
        cases c with
        | none =>
          exfalso
          rcases hd with ⟨x', hx', hx'ne⟩ | h
          · rcases List.mem_singleton.1 hx' with h'
            exact hx'ne h'
          · exact h rfl
        | some v => exact ⟨v, by simp [ffillGo]⟩
      | some a => exact ⟨a, by simp [ffillGo]⟩
    | cons th tt =>
      cases x with
      | none =>
        have hdisj : (∃ x ∈ th :: tt, x ≠ none) ∨ c ≠ none := by
          rcases hd with ⟨x', hx', hne'⟩ | hc
          · rcases List.mem_cons.1 hx' with h' | h'
            · exact absurd h' hne'
            · exact Or.inl ⟨x', h', hne'⟩
          · exact Or.inr hc
        obtain ⟨v, hv⟩ := ih c (by simp) hdisj
        refine ⟨v, ?_⟩
        rw [show ffillGo c (none :: th :: tt) = c :: ffillGo c (th :: tt) from rfl,
          getLast?_cons_of_ne_nil (ffillGo_ne_nil (by simp) c)]
        exact hv
      | some a =>
        obtain ⟨v, hv⟩ := ih (some a) (by simp) (Or.inr (by simp))
        refine ⟨v, ?_⟩
        rw [show ffillGo c (some a :: th :: tt) = some a :: ffillGo (some a) (th :: tt) from rfl,
          getLast?_cons_of_ne_nil (ffillGo_ne_nil (by simp) (some a))]
        exact hv

theorem allSome_bfill_ffill {l : List (Option α)} (h : ∃ x ∈ l, x ≠ none) :
    ∀ y ∈ bfill (ffill l), y ≠ none := by
  have hlne : l ≠ [] := by
    rcases h with ⟨x, hx, _⟩
    intro hl
    rw [hl] at hx
    cases hx
  obtain ⟨v, hv⟩ := ffillGo_getLast?_some l none hlne (Or.inl h)
  have hhead : (ffill l).reverse.head? = some (some v) := by
    rw [List.head?_reverse]
    exact hv
  rcases hrev : (ffill l).reverse with _ | ⟨h0, rest⟩
  · rw [hrev] at hhead
    cases hhead
  · rw [hrev] at hhead
    have h0eq : h0 = some v := by simpa using hhead
    subst h0eq
    intro y hy
    rw [bfill, ffill] at hy
    rw [show ffillGo none l = ffill l from rfl, hrev] at hy
    rw [List.mem_reverse] at hy
    rw [show ffillGo none (some v :: rest) = some v :: ffillGo (some v) rest from rfl] at hy
    rcases List.mem_cons.1 hy with h' | h'
    · subst h'; simp
    · exact mem_ffillGo_some rest v y h'

theorem ffillGo_none_of_allNone :
    ∀ l : List (Option α), (∀ x ∈ l, x = none) → ffillGo none l = l := by
  intro l
  induction l with
  | nil => intro _; rfl
  | cons x t ih =>
    intro h
    have hx : x = none := h x (List.mem_cons_self x t)
    subst hx
    rw [show ffillGo (none : Option α) (none :: t) = none :: ffillGo none t from rfl,
      ih (fun y hy => h y (List.mem_cons_of_mem _ hy))]

theorem bfill_ffill_of_allNone {l : List (Option α)} (h : ∀ x ∈ l, x = none) :
    bfill (ffill l) = l := by
  rw [ffill, ffillGo_none_of_allNone l h, bfill,
    ffillGo_none_of_allNone _ (fun x hx => h x (List.mem_reverse.1 hx)),
    List.reverse_reverse]

theorem some_or (a : α) (x : Option α) : (some a).or x = some a := rfl

theorem length_ffillGo : ∀ (l : List (Option α)) (c : Option α),
    (ffillGo c l).length = l.length := by
  intro l
  induction l with
  | nil => intro c; rfl
  | cons x t ih => intro c; cases x <;> simp [ffillGo, ih]

theorem findSome?_ffillGo_none :
    ∀ l : List (Option α), (ffillGo none l).findSome? id = l.findSome? id := by
  intro l
  induction l with
  | nil => rfl
  | cons x t ih =>
    cases x with
    | none =>
      rw [show ffillGo (none : Option α) (none :: t) = none :: ffillGo none t from rfl]
      simpa [List.findSome?] using ih
    | some a => rfl

theorem get?_ffillGo : ∀ (l : List (Option α)) (c : Option α) (i : ℕ), i < l.length →
    (ffillGo c l).get? i = some (((l.take (i + 1)).reverse.findSome? id).or c) := by
  intro l
  induction l with
  | nil => intro c i h; exact absurd h (Nat.not_lt_zero i)
  | cons x t ih =>
    intro c i h
    cases i with
    | zero =>
      cases x with
      | none => simp [ffillGo, List.findSome?]
      | some a => simp [ffillGo, List.findSome?]
    | succ j =>
      have h' : j < t.length := by simpa using h
      cases x with
      | none =>
        rw [show ffillGo c (none :: t) = c :: ffillGo c t from rfl,
          List.get?_cons_succ, ih c j h',
          show (none :: t : List (Option α)).take (j + 1 + 1) = none :: t.take (j + 1)
            from rfl,
          List.reverse_cons, List.findSome?_append]
        simp [List.findSome?]
      | some a =>
        rw [show ffillGo c (some a :: t) = some a :: ffillGo (some a) t from rfl,
          List.get?_cons_succ, ih (some a) j h',
          show (some a :: t : List (Option α)).take (j + 1 + 1) = some a :: t.take (j + 1)
            from rfl,
          List.reverse_cons, List.findSome?_append]
        simp [List.findSome?, Option.or_assoc, some_or]

theorem get?_bfill (l : List (Option α)) (i : ℕ) (h : i < l.length) :
    (bfill l).get? i = some ((l.drop i).findSome? id) := by
  rw [bfill]
  have hi : i < (ffillGo none l.reverse).length := by
    rw [length_ffillGo, List.length_reverse]
    exact h
  rw [List.get?_reverse hi, length_ffillGo, List.length_reverse]
  have hj : l.length - 1 - i < l.reverse.length := by
    rw [List.length_reverse]
    omega
  rw [get?_ffillGo l.reverse none (l.length - 1 - i) hj, Option.or_none]
  have htake : l.reverse.take (l.length - 1 - i + 1) = (l.drop i).reverse := by
    rw [List.reverse_drop]
    congr 1
    omega
  rw [htake, List.reverse_reverse]

theorem findSome?_drop_ffillGo :
    ∀ (l : List (Option α)) (c : Option α) (i : ℕ), i < l.length →
      ((ffillGo c l).drop i).findSome? id =
        ((l.take (i + 1)).reverse.findSome? id).or
          (c.or ((l.drop (i + 1)).findSome? id)) := by
  intro l
  induction l with
  | nil => intro c i h; exact absurd h (Nat.not_lt_zero i)
  | cons x t ih =>
    intro c i h
    cases i with
    | zero =>
      cases x with
      | none =>
        rw [show ffillGo c (none :: t) = c :: ffillGo c t from rfl, List.drop_zero]
        cases c with
        | none => simpa [List.findSome?] using findSome?_ffillGo_none t
        | some v => simp [List.findSome?, some_or]
      | some a =>
        rw [show ffillGo c (some a :: t) = some a :: ffillGo (some a) t from rfl,
          List.drop_zero]
        simp [List.findSome?, some_or]
    | succ j =>
      have h' : j < t.length := by simpa using h
      cases x with
      | none =>
        rw [show ffillGo c (none :: t) = c :: ffillGo c t from rfl,
          List.drop_succ_cons, ih c j h',
          show (none :: t : List (Option α)).take (j + 1 + 1) = none :: t.take (j + 1)
            from rfl,
          List.reverse_cons, List.findSome?_append,
          show (none :: t : List (Option α)).drop (j + 1 + 1) = t.drop (j + 1) from rfl]
        simp [List.findSome?]
      | some a =>
        rw [show ffillGo c (some a :: t) = some a :: ffillGo (some a) t from rfl,
          List.drop_succ_cons, ih (some a) j h',
          show (some a :: t : List (Option α)).take (j + 1 + 1) = some a :: t.take (j + 1)
            from rfl,
          List.reverse_cons, List.findSome?_append,
          show (some a :: t : List (Option α)).drop (j + 1 + 1) = t.drop (j + 1) from rfl]
        simp [List.findSome?, Option.or_assoc, some_or]

theorem bfill_ffill_eq_nearestFill (l : List (Option α)) :
    bfill (ffill l) = nearestFill l := by
  apply List.ext_get?
  intro n
  by_cases h : n < l.length
  · have h1 : n < (ffill l).length := by
      rw [ffill, length_ffillGo]
      exact h
    rw [get?_bfill (ffill l) n h1, nearestFill, List.get?_map, List.get?_range h,
      ffill, findSome?_drop_ffillGo l none n h]
    simp [Option.none_or]
  · have hb : (bfill (ffill l)).length = l.length := by
      rw [bfill, List.length_reverse, length_ffillGo, List.length_reverse, ffill,
        length_ffillGo]
    have h1 : (bfill (ffill l)).get? n = none := by
      rw [List.get?_eq_none]
      omega
    have h2 : (nearestFill l).get? n = none := by
      rw [List.get?_eq_none, nearestFill, List.length_map, List.length_range]
      omega
    rw [h1, h2]

theorem compute_filled_split_some_ne_none (v : ℚ) (st : PyStr) (pos : Option ℚ) :
    compute_filled_split (some v) st pos ≠ none := by
  simp only [compute_filled_split]
  split
  · split
    · split <;> simp
    · simp
  · simp

theorem compute_filled_split_pos_ne_none (s : Option ℚ) (st : PyStr) (p : ℚ) :
    compute_filled_split s st (some p) ≠ none := by
  cases s with
  | none => simp [compute_filled_split]
  | some v => exact compute_filled_split_some_ne_none v st (some p)

/-- C3: after `calculate_split_times`, the group-wise `ffill` then `bfill`
replaces each null per-row filled split with the nearest non-null value in
the group's row order (backward first, then forward); consequently a row's
filled split is null iff every row of its group has a null per-row filled
split, and every row of a group containing a finisher — a row with
`finish_position == 1` and a recorded time, i.e. a valid winner — ends up
with a non-null filled split. -/
theorem C3_backfill_null_iff :
    ∀ g : List ResultRow,
      calculate_split_times g = nearestFill (filled_splits_raw g) ∧
      (∀ x ∈ calculate_split_times g,
        (x = none ↔ ∀ y ∈ filled_splits_raw g, y = none)) ∧
      ((∃ r ∈ g, r.finish_position = some 1 ∧ r.time ≠ none) →
        ∀ x ∈ calculate_split_times g, x ≠ none) := by
  intro g
  refine ⟨bfill_ffill_eq_nearestFill _, ?_, ?_⟩
  · intro x hx
    constructor
    · intro hxn y hy
      by_contra hyne
      exact (allSome_bfill_ffill ⟨y, hy, hyne⟩ x hx) hxn
    · intro hall
      rw [calculate_split_times, bfill_ffill_of_allNone hall] at hx
      exact hall x hx
  · rintro ⟨r, hr, hpos, -⟩
    apply allSome_bfill_ffill
    refine ⟨compute_filled_split (row_split (winner_time g) r) r.status r.finish_position,
      List.mem_map_of_mem _ hr, ?_⟩
    rw [hpos]
    exact compute_filled_split_pos_ne_none _ _ 1

/-- Witness for C3: a group holding a valid winner row and a DNF row with no
time or position gets no null filled split. -/
theorem C3_witness :
    (none : Option ℚ) ∉ calculate_split_times
      [⟨some 100, some 1, "Finished".toList⟩, ⟨none, none, "Retired".toList⟩] := by
  intro h
  exact (C3_backfill_null_iff _).2.2
    ⟨⟨some 100, some 1, "Finished".toList⟩, List.mem_cons_self _ _, rfl, by simp⟩
    none h rfl

/-! ### C4 — standings aggregation -/

theorem withPositions_map_name :
    ∀ (n : ℕ) (l : List Standing),
      (withPositions n l).map (fun s => s.name) = l.map (fun s => s.name) := by
  intro n l
  induction l generalizing n with
  | nil => rfl
  | cons s t ih => simp [withPositions, ih]

theorem length_withPositions :
    ∀ (n : ℕ) (l : List Standing), (withPositions n l).length = l.length := by
  intro n l
  induction l generalizing n with
  | nil => rfl
  | cons s t ih => simp [withPositions, ih]

theorem withPositions_map_position :
    ∀ (n : ℕ) (l : List Standing),
      (withPositions n l).map (fun s => s.position) = List.range' n l.length := by
  intro n l
  induction l generalizing n with
  | nil => rfl
  | cons s t ih => simp [withPositions, ih, List.range'_succ]

theorem mem_withPositions :
    ∀ (n : ℕ) (l : List Standing), ∀ e ∈ withPositions n l,
      ∃ s ∈ l, e = { s with position := e.position } := by
  intro n l
  induction l generalizing n with
  | nil => intro e he; cases he
  | cons s t ih =>
    intro e he
    rw [show withPositions n (s :: t) = { s with position := n } :: withPositions (n + 1) t
      from rfl] at he
    rcases List.mem_cons.1 he with h | h
    · subst h
      exact ⟨s, List.mem_cons_self s t, rfl⟩
    · obtain ⟨s', hs', he'⟩ := ih (n + 1) e h
      exact ⟨s', List.mem_cons_of_mem _ hs', he'⟩

theorem pairwise_withPositions (R : ℤ → ℤ → Prop) :
    ∀ (n : ℕ) {l : List Standing},
      l.Pairwise (fun a b => R a.total_points b.total_points) →
      (withPositions n l).Pairwise (fun a b => R a.total_points b.total_points) := by
  intro n l
  induction l generalizing n with
  | nil => intro _; exact List.Pairwise.nil
  | cons s t ih =>
    intro hp
    rw [List.pairwise_cons] at hp
    obtain ⟨hs, ht⟩ := hp
    rw [show withPositions n (s :: t) = { s with position := n } :: withPositions (n + 1) t
      from rfl, List.pairwise_cons]
    refine ⟨?_, ih (n + 1) ht⟩
    intro b hb
    obtain ⟨s', hs', hb'⟩ := mem_withPositions (n + 1) t b hb
    have h1 : b.total_points = s'.total_points := by rw [hb']
    rw [show ({ s with position := n } : Standing).total_points = s.total_points from rfl,
      h1]
    exact hs s' hs'

/-- The three-race scenario of claim C4: driver A finishes 1,2,1 (scores
25,18,25) and driver B finishes 2,1,2 (scores 18,25,18). -/
def rowsAB : List (PyStr × ℤ) :=
  [("A".toList, 1), ("B".toList, 2), ("A".toList, 2),
   ("B".toList, 1), ("A".toList, 1), ("B".toList, 2)]

/-- C4: on a non-empty season of result rows the standings table has each
entity exactly once (names are exactly the distinct input names), aggregates
`totalPoints`/`races`/`wins`/`podiums`/`pointsFinishes` per entity as sums
and counts over that entity's rows, is sorted descending by `totalPoints`,
and carries positions `1..N` in sorted order; in the A/B scenario A totals
68, B totals 61, and A is ranked first. -/
theorem C4_standings_aggregation :
    (∀ rows : List (PyStr × ℤ), rows ≠ [] →
      (((calculate_driver_standings rows).map (fun s => s.name)).Nodup ∧
       (∀ n : PyStr, n ∈ (calculate_driver_standings rows).map (fun s => s.name) ↔
          n ∈ rows.map Prod.fst) ∧
       (∀ e ∈ calculate_driver_standings rows,
          e.total_points = ((rows.filter (fun r => r.1 = e.name)).map
            (fun r => position_to_points r.2)).sum ∧
          e.races = (rows.filter (fun r => r.1 = e.name)).length ∧
          e.wins = (((rows.filter (fun r => r.1 = e.name)).map
            (fun r => position_to_points r.2)).filter (fun p => p = 25)).length ∧
          e.podiums = (((rows.filter (fun r => r.1 = e.name)).map
            (fun r => position_to_points r.2)).filter (fun p => 15 ≤ p)).length ∧
          e.points_finishes = (((rows.filter (fun r => r.1 = e.name)).map
            (fun r => position_to_points r.2)).filter (fun p => 0 < p)).length) ∧
       (calculate_driver_standings rows).Pairwise
         (fun a b => b.total_points ≤ a.total_points) ∧
       (calculate_driver_standings rows).map (fun s => s.position) =
         List.range' 1 (calculate_driver_standings rows).length)) ∧
    calculate_driver_standings rowsAB =
      [⟨1, "A".toList, 68, 2, 3, 3, 3⟩, ⟨2, "B".toList, 61, 1, 3, 3, 3⟩] := by
  refine ⟨?_, by decide⟩
  intro rows _
  have hcalc : calculate_driver_standings rows =
      withPositions 1 (sortLe (fun a b : Standing => decide (b.total_points ≤ a.total_points))
        ((sortLe leChars (rows.map Prod.fst).dedup).map (aggStanding rows))) := rfl
  have hmapname : ((sortLe leChars (rows.map Prod.fst).dedup).map (aggStanding rows)).map
      (fun s => s.name) = sortLe leChars (rows.map Prod.fst).dedup := by
    rw [List.map_map]
    have h : ((fun s : Standing => s.name) ∘ aggStanding rows) = fun n => n :=
      funext (fun n => rfl)
    rw [h]
    simp
  have hpermname : ((calculate_driver_standings rows).map (fun s => s.name)).Perm
      ((rows.map Prod.fst).dedup) := by
    rw [hcalc, withPositions_map_name]
    have h1 := (perm_sortLe (fun a b : Standing => decide (b.total_points ≤ a.total_points))
      ((sortLe leChars (rows.map Prod.fst).dedup).map (aggStanding rows))).map
      (fun s => s.name)
    rw [hmapname] at h1
    exact h1.trans (perm_sortLe leChars _)
  refine ⟨?_, ?_, ?_, ?_, ?_⟩
  · exact hpermname.symm.nodup (List.nodup_dedup _)
  · intro n
    rw [hpermname.mem_iff, List.mem_dedup]
  · intro e he
    rw [hcalc] at he
    obtain ⟨s, hs, he'⟩ := mem_withPositions 1 _ e he
    have hs0 : s ∈ (sortLe leChars (rows.map Prod.fst).dedup).map (aggStanding rows) :=
      (perm_sortLe _ _).mem_iff.1 hs
    obtain ⟨n, hn, hsn⟩ := List.mem_map.1 hs0
    have hname : e.name = n := by
      rw [he', ← hsn]
      rfl
    have hfields : e.total_points = s.total_points ∧ e.races = s.races ∧
        e.wins = s.wins ∧ e.podiums = s.podiums ∧
        e.points_finishes = s.points_finishes := by
      rw [he']
      exact ⟨rfl, rfl, rfl, rfl, rfl⟩
    rw [hname, hfields.1, hfields.2.1, hfields.2.2.1, hfields.2.2.2.1,
      hfields.2.2.2.2, ← hsn]
    refine ⟨rfl, ?_, rfl, rfl, rfl⟩
    simp [aggStanding]
  · rw [hcalc]
    apply pairwise_withPositions (fun x y => y ≤ x)
    have htrans : ∀ a b c : Standing,
        (fun a b : Standing => decide (b.total_points ≤ a.total_points)) a b = true →
        (fun a b : Standing => decide (b.total_points ≤ a.total_points)) b c = true →
        (fun a b : Standing => decide (b.total_points ≤ a.total_points)) a c = true := by
      intro a b c hab hbc
      exact decide_eq_true (le_trans (of_decide_eq_true hbc) (of_decide_eq_true hab))
    have htot : ∀ a b : Standing,
        (fun a b : Standing => decide (b.total_points ≤ a.total_points)) a b = false →
        (fun a b : Standing => decide (b.total_points ≤ a.total_points)) b a = true := by
      intro a b hab
      exact decide_eq_true (le_of_not_le (of_decide_eq_false hab))
    exact (pairwise_sortLe _ htrans htot _).imp (fun h => of_decide_eq_true h)
  · rw [hcalc, withPositions_map_position, length_withPositions]

/-- Witness for C4: on the concrete A/B scenario the positions column is
exactly `[1, 2]`. -/
theorem C4_witness :
    (calculate_driver_standings rowsAB).map (fun s => s.position) =
      List.range' 1 (calculate_driver_standings rowsAB).length :=
  ((C4_standings_aggregation.1 rowsAB (by decide)).2.2.2.2)

end F1
